import Mathlib

/-!
# Verification of the history-in-your-pocket browser scripts

Shallow embedding of the three client-side scripts:

* `static/js/bookmarks.js` — localStorage-backed bookmark list
  (`loadBookmarks`, `saveBookmarks`, `addBookmark`, `exportBookmarks`);
* `static/js/main.js` — date helper (`mmddFromDateInput`);
* `static/js/quiz.js` — quiz fetch/render/grade
  (`loadQuiz`, `renderQuiz`, `gradeQuiz`).

The scripts lean on the browser's built-in `JSON.parse` / `JSON.stringify`,
which we model here over a JSON value type whose numbers are integers
(floating point is out of scope; the bookmark data model stores strings).
The browser's localStorage is modelled as the optional string stored under
the single key used by the scripts, and the DOM effects are modelled as the
values the scripts write into the page.
-/

/-- JSON values as produced by the browser's `JSON.parse`.  Numbers are
modelled as integers; object fields are kept in insertion order. -/
inductive Json where
  | null : Json
  | bool (b : Bool) : Json
  | num (n : Int) : Json
  | str (s : String) : Json
  | arr (elems : List Json) : Json
  | obj (fields : List (String × Json)) : Json

/-! ## Serialization: the model of `JSON.stringify(v, null, gap)` -/

/-- Decimal digits of a natural number, most significant first. -/
def natDigits (n : Nat) : List Char :=
  if h : n < 10 then [Char.ofNat (48 + n)]
  else natDigits (n / 10) ++ [Char.ofNat (48 + n % 10)]
decreasing_by
  exact Nat.div_lt_self (by omega) (by omega)

/-- Decimal rendering of an integer, as `JSON.stringify` prints an
integer-valued number. -/
def intChars (n : Int) : List Char :=
  if n < 0 then '-' :: natDigits n.natAbs else natDigits n.natAbs

/-- Lower-case hexadecimal digit, used in `\u00XX` escapes. -/
def hexDigitChar (n : Nat) : Char :=
  if n < 10 then Char.ofNat (48 + n) else Char.ofNat (87 + n)

/-- How `JSON.stringify` escapes one character inside a string literal. -/
def escChar (c : Char) : List Char :=
  if c = '"' then ['\\', '"']
  else if c = '\\' then ['\\', '\\']
  else if c = '\x08' then ['\\', 'b']
  else if c = '\t' then ['\\', 't']
  else if c = '\n' then ['\\', 'n']
  else if c = '\x0c' then ['\\', 'f']
  else if c = '\r' then ['\\', 'r']
  else if c.toNat < 32 then
    ['\\', 'u', '0', '0', hexDigitChar (c.toNat / 16), hexDigitChar (c.toNat % 16)]
  else [c]

/-- Escaped body of a JSON string literal. -/
def escString (cs : List Char) : List Char := cs.flatMap escChar

/-- A complete JSON string literal (quotes included). -/
def strLit (s : String) : List Char := '"' :: (escString s.data ++ ['"'])

/-- The newline-plus-indentation that `JSON.stringify` inserts at nesting
depth `d` when called with a positive `gap`; empty in compact mode. -/
def nlIndent (gap d : Nat) : List Char :=
  if gap = 0 then [] else '\n' :: List.replicate (gap * d) ' '

/-- The key/value separator: `":"` in compact mode, `": "` with a gap. -/
def colonSep (gap : Nat) : List Char :=
  if gap = 0 then [':'] else [':', ' ']

mutual

/-- Characters of `JSON.stringify(j, null, gap)` at nesting depth `d`. -/
def serialize (gap d : Nat) : Json → List Char
  | Json.null => ['n', 'u', 'l', 'l']
  | Json.bool true => ['t', 'r', 'u', 'e']
  | Json.bool false => ['f', 'a', 'l', 's', 'e']
  | Json.num n => intChars n
  | Json.str s => strLit s
  | Json.arr [] => ['[', ']']
  | Json.arr (e :: es) =>
      '[' :: (nlIndent gap (d + 1) ++ serialize gap (d + 1) e ++ serArrTail gap d es)
  | Json.obj [] => ['{', '}']
  | Json.obj (f :: fs) =>
      '{' :: (nlIndent gap (d + 1) ++ strLit f.1 ++ colonSep gap ++
        serialize gap (d + 1) f.2 ++ serObjTail gap d fs)

/-- The serialized tail of a non-empty array: the remaining elements, each
preceded by a comma, then the closing bracket on its own indentation. -/
def serArrTail (gap d : Nat) : List Json → List Char
  | [] => nlIndent gap d ++ [']']
  | e :: es =>
      ',' :: (nlIndent gap (d + 1) ++ serialize gap (d + 1) e ++ serArrTail gap d es)

/-- The serialized tail of a non-empty object. -/
def serObjTail (gap d : Nat) : List (String × Json) → List Char
  | [] => nlIndent gap d ++ ['}']
  | f :: fs =>
      ',' :: (nlIndent gap (d + 1) ++ strLit f.1 ++ colonSep gap ++
        serialize gap (d + 1) f.2 ++ serObjTail gap d fs)

end

/-- Model of `JSON.stringify(j, null, gap)` (with `gap = 0` standing for the
two-argument form `JSON.stringify(j)`). -/
def jsonStringify (j : Json) (gap : Nat) : String :=
  String.mk (serialize gap 0 j)

/-! ## Parsing: the model of `JSON.parse` -/

/-- JSON insignificant whitespace. -/
def isJsonWs (c : Char) : Bool :=
  c = ' ' || c = '\t' || c = '\n' || c = '\r'

/-- Skip insignificant whitespace. -/
def skipWs (s : List Char) : List Char := s.dropWhile isJsonWs

/-- Numeric value of a decimal digit character. -/
def digitVal (c : Char) : Nat := c.toNat - 48

/-- Accumulate a run of decimal digits left to right. -/
def readDigits (acc : Nat) : List Char → Nat × List Char
  | c :: cs => if c.isDigit then readDigits (acc * 10 + digitVal c) cs else (acc, c :: cs)
  | [] => (acc, [])

/-- Parse the integer part of a JSON number: a single `0`, or a nonzero
digit followed by a digit run (JSON forbids leading zeros). -/
def parseNat : List Char → Option (Nat × List Char)
  | [] => none
  | c :: cs =>
      if c = '0' then some (0, cs)
      else if c.isDigit then some (readDigits (digitVal c) cs)
      else none

/-- Numeric value of a lower-case hexadecimal digit, if it is one. -/
def hexVal (c : Char) : Option Nat :=
  if '0' ≤ c ∧ c ≤ '9' then some (c.toNat - 48)
  else if 'a' ≤ c ∧ c ≤ 'f' then some (c.toNat - 87)
  else if 'A' ≤ c ∧ c ≤ 'F' then some (c.toNat - 55)
  else none

/-- The character denoted by a single-letter escape, if the letter is a
legal JSON escape. -/
def escCharFor (e : Char) : Option Char :=
  if e = '"' then some '"'
  else if e = '\\' then some '\\'
  else if e = '/' then some '/'
  else if e = 'b' then some '\x08'
  else if e = 'f' then some '\x0c'
  else if e = 'n' then some '\n'
  else if e = 'r' then some '\r'
  else if e = 't' then some '\t'
  else none

/-- Parse the body of a JSON string literal after the opening quote,
returning the unescaped characters and the input after the closing quote.
Raw control characters are rejected, as `JSON.parse` rejects them; an
incomplete escape at the end of input falls through to a failing case. -/
def parseStrBody : List Char → Option (List Char × List Char)
  | [] => none
  | c :: cs =>
      if c = '"' then some ([], cs)
      else if c = '\\' then
        match cs with
        | [] => none
        | e :: cs1 =>
            if e = 'u' then
              match cs1 with
              | h1 :: h2 :: h3 :: h4 :: cs2 =>
                  (match hexVal h1, hexVal h2, hexVal h3, hexVal h4 with
                   | some a, some b, some x, some d =>
                       (parseStrBody cs2).map fun r =>
                         (Char.ofNat (((a * 16 + b) * 16 + x) * 16 + d) :: r.1, r.2)
                   | _, _, _, _ => none)
              | _ => none
            else
              match escCharFor e with
              | some c1 => (parseStrBody cs1).map fun r => (c1 :: r.1, r.2)
              | none => none
      else if c.toNat < 32 then none
      else (parseStrBody cs).map fun r => (c :: r.1, r.2)

mutual

/-- Parse one JSON value (fuel-bounded recursive descent, dispatching on
the first significant character).  The fuel only has to exceed the nesting
depth of the value; `jsonParse` supplies the input length, which always
suffices. -/
def parseVal : Nat → List Char → Option (Json × List Char)
  | 0, _ => none
  | fuel + 1, s =>
      match skipWs s with
      | [] => none
      | c :: cs =>
          if c = 'n' then
            match cs with
            | 'u' :: 'l' :: 'l' :: cs1 => some (Json.null, cs1)
            | _ => none
          else if c = 't' then
            match cs with
            | 'r' :: 'u' :: 'e' :: cs1 => some (Json.bool true, cs1)
            | _ => none
          else if c = 'f' then
            match cs with
            | 'a' :: 'l' :: 's' :: 'e' :: cs1 => some (Json.bool false, cs1)
            | _ => none
          else if c = '"' then
            (parseStrBody cs).map fun r => (Json.str (String.mk r.1), r.2)
          else if c = '-' then
            (parseNat cs).map fun r => (Json.num (-(r.1 : Int)), r.2)
          else if c = '[' then
            match skipWs cs with
            | [] => none
            | c1 :: cs1 =>
                if c1 = ']' then some (Json.arr [], cs1)
                else
                  match parseVal fuel (c1 :: cs1) with
                  | some (j, cs2) => parseArrTail fuel cs2 [j]
                  | none => none
          else if c = '{' then
            match skipWs cs with
            | [] => none
            | c1 :: cs1 =>
                if c1 = '}' then some (Json.obj [], cs1)
                else if c1 = '"' then
                  match parseStrBody cs1 with
                  | some (k, cs2) =>
                      (match skipWs cs2 with
                       | ':' :: cs3 =>
                          (match parseVal fuel cs3 with
                           | some (v, cs4) => parseObjTail fuel cs4 [(String.mk k, v)]
                           | none => none)
                       | _ => none)
                  | none => none
                else none
          else if c.isDigit then
            (parseNat (c :: cs)).map fun r => (Json.num (r.1 : Int), r.2)
          else none

/-- After one or more array elements (held reversed in `acc`): either a
comma and another element, or the closing bracket. -/
def parseArrTail : Nat → List Char → List Json → Option (Json × List Char)
  | 0, _, _ => none
  | fuel + 1, s, acc =>
      match skipWs s with
      | [] => none
      | c :: cs =>
          if c = ']' then some (Json.arr acc.reverse, cs)
          else if c = ',' then
            match parseVal fuel cs with
            | some (j, cs1) => parseArrTail fuel cs1 (j :: acc)
            | none => none
          else none

/-- After one or more object fields (held reversed in `acc`): either a
comma and another field, or the closing brace. -/
def parseObjTail : Nat → List Char → List (String × Json) → Option (Json × List Char)
  | 0, _, _ => none
  | fuel + 1, s, acc =>
      match skipWs s with
      | [] => none
      | c :: cs =>
          if c = '}' then some (Json.obj acc.reverse, cs)
          else if c = ',' then
            match skipWs cs with
            | [] => none
            | c1 :: cs1 =>
                if c1 = '"' then
                  match parseStrBody cs1 with
                  | some (k, cs2) =>
                      (match skipWs cs2 with
                       | ':' :: cs3 =>
                          (match parseVal fuel cs3 with
                           | some (v, cs4) => parseObjTail fuel cs4 ((String.mk k, v) :: acc)
                           | none => none)
                       | _ => none)
                  | none => none
                else none
          else none

end

/-- Model of `JSON.parse`: parse one value, then require only trailing
whitespace.  The fuel `s.length + 1` exceeds any possible nesting depth of
the input, since each nesting level consumes at least one character. -/
def jsonParse (s : String) : Option Json :=
  match parseVal (s.length + 1) s.data with
  | some (j, rest) => if skipWs rest = [] then some j else none
  | none => none

/-! ## bookmarks.js -/

/-- The persisted value under the single localStorage key
`"hip_bookmarks_v1"`; `none` models an absent key (`getItem` → `null`). -/
abbrev Storage := Option String

/-- `loadBookmarks()`: read the raw value; the `!raw` guard maps an absent
key or empty string to `[]`; a `JSON.parse` failure is caught and also
yields `[]`.  Total, so the function never throws. -/
def loadBookmarks (st : Storage) : Json :=
  match st with
  | none => Json.arr []
  | some raw =>
      if raw = "" then Json.arr []
      else
        match jsonParse raw with
        | some j => j
        | none => Json.arr []

/-- `saveBookmarks(list)`: persist `JSON.stringify(list)` (compact form)
under the key; the result is the new storage state. -/
def saveBookmarks (list : Json) : Storage :=
  some (jsonStringify list 0)

/-- `clearBookmarks()`: remove the persisted value. -/
def clearBookmarks (_st : Storage) : Storage := none

/-- JS property access `v[k]` on a parsed JSON value: `none` models
`undefined` (non-objects, missing keys).  On duplicate keys the last
occurrence wins, as it does for an object built by `JSON.parse`. -/
def jget (j : Json) (k : String) : Option Json :=
  match j with
  | Json.obj fs => fs.reverse.lookup k
  | _ => none

/-- JS strict equality `===` between two property values in the duplicate
check; `none` is `undefined`.  Primitive values compare structurally; two
values of object or array type reached here come from different parses, so
they are distinct references and compare unequal. -/
def jsStrictEq : Option Json → Option Json → Bool
  | none, none => true
  | some Json.null, some Json.null => true
  | some (Json.bool a), some (Json.bool b) => a == b
  | some (Json.num a), some (Json.num b) => a == b
  | some (Json.str a), some (Json.str b) => a == b
  | _, _ => false

/-- The duplicate test of `addBookmark`:
`b.title === eventObj.title && b.date === eventObj.date`. -/
def bookmarkMatches (b eventObj : Json) : Bool :=
  jsStrictEq (jget b "title") (jget eventObj "title") &&
    jsStrictEq (jget b "date") (jget eventObj "date")

/-- `addBookmark(eventObj)`: duplicate by (title, date) → `false`, no
change; otherwise `unshift` the record, persist, return `true`.  The result
pairs the returned boolean with the storage state after the call; `none`
models the TypeError thrown when the stored value parsed to a non-array
(then `list.some` is not a function). -/
def addBookmark (st : Storage) (eventObj : Json) : Option (Bool × Storage) :=
  match loadBookmarks st with
  | Json.arr list =>
      if list.any (fun b => bookmarkMatches b eventObj) then some (false, st)
      else some (true, saveBookmarks (Json.arr (eventObj :: list)))
  | _ => none

/-- The content of the file produced by `exportBookmarks()`:
`JSON.stringify(loadBookmarks(), null, 2)`.  The timestamped filename and
the blob/anchor download mechanics carry no bookmark data and are not
modelled. -/
def exportContent (st : Storage) : String :=
  jsonStringify (loadBookmarks st) 2

/-! ## main.js -/

/-- Accumulator loop of `jsSplit`; `acc` holds the characters of the
current part, reversed. -/
def jsSplitGo (sep : Char) (acc : List Char) : List Char → List String
  | [] => [String.mk acc.reverse]
  | c :: cs =>
      if c = sep then String.mk acc.reverse :: jsSplitGo sep [] cs
      else jsSplitGo sep (c :: acc) cs

/-- JS `String.prototype.split(sep)` with a one-character separator:
`"".split(sep)` is `[""]`, and adjacent separators produce empty parts. -/
def jsSplit (s : String) (sep : Char) : List String :=
  jsSplitGo sep [] s.data

/-- JS `String.prototype.padStart(n, c)`. -/
def jsPadStart (s : String) (n : Nat) (c : Char) : String :=
  if s.length < n then String.mk (List.replicate (n - s.length) c) ++ s else s

/-- `mmddFromDateInput(dateVal)` (named `toCompactDayKey` in the
specification).  `none` models a null/undefined argument; the `!dateVal`
guard also treats the empty string as absent. -/
def mmddFromDateInput (dateVal : Option String) : Option String :=
  match dateVal with
  | none => none
  | some s =>
      if s = "" then none
      else
        let parts := jsSplit s '-'
        if parts.length ≥ 3 then
          some (jsPadStart (parts.getD 1 "") 2 '0' ++ "-" ++ jsPadStart (parts.getD 2 "") 2 '0')
        else none

/-! ## quiz.js -/

/-- A quiz question as delivered by the external quiz API
(`{ id, question, description, options, correct }`); `description` is
`none` when the field is absent (`q.description || ""`). -/
structure Question where
  id : String
  question : String
  description : Option String
  options : List String
  correct : Int

/-- One radio input created by `renderQuiz`: `name` is the question's `id`
(grouping the inputs exclusively), `value` the option's literal text, and
`elemId` the DOM id `` `${q.id}-${opt}` ``. -/
structure RadioInput where
  name : String
  value : String
  elemId : String

/-- One question card built by `renderQuiz`: numbered title, description
text, the radio inputs, and the `dataset.correct` attribute (the `correct`
value coerced to a string by the DOM). -/
structure RenderedQuestion where
  title : String
  desc : String
  inputs : List RadioInput
  correctAttr : String

/-- What `renderQuiz` leaves in the `#quiz-area` container (the container
is cleared first, so this is its entire content): either the fixed
no-questions notice, or the form with the question cards and the single
submit action. -/
inductive QuizView where
  | noQuestions (html : String) : QuizView
  | form (questions : List RenderedQuestion) (submitLabel : String) : QuizView

/-- The card `renderQuiz` builds for question `q` at 0-based index `idx`. -/
def renderQuestionBox (idx : Nat) (q : Question) : RenderedQuestion :=
  { title := toString (idx + 1) ++ ". " ++ q.question
    desc := q.description.getD ""
    inputs := q.options.map fun opt =>
      { name := q.id, value := opt, elemId := q.id ++ "-" ++ opt }
    correctAttr := toString q.correct }

/-- `renderQuiz(questions)` with the container present: empty input shows
the fixed notice and stops; otherwise one card per question in order plus
the submit button. -/
def renderQuiz (questions : List Question) : QuizView :=
  if questions.length = 0 then
    QuizView.noQuestions "<div class=\x27small\x27>No quiz questions found for this selection.</div>"
  else
    QuizView.form (questions.enum.map fun p => renderQuestionBox p.1 p.2) "Submit Quiz"

/-- All selectable inputs present in a rendered view. -/
def viewInputs : QuizView → List RadioInput
  | QuizView.noQuestions _ => []
  | QuizView.form qs _ => (qs.map RenderedQuestion.inputs).flatten

/-- Whether a rendered view contains the submit action. -/
def viewHasSubmit : QuizView → Bool
  | QuizView.noQuestions _ => false
  | QuizView.form _ _ => true

/-- JS whitespace skipped by `parseInt`. -/
def isJsSpace (c : Char) : Bool :=
  c = ' ' || c = '\t' || c = '\n' || c = '\r' || c = '\x0b' || c = '\x0c'

/-- Value of a run of decimal digits. -/
def digitsToNat (ds : List Char) : Nat :=
  ds.foldl (fun a c => a * 10 + digitVal c) 0

/-- Value of a run of hexadecimal digits. -/
def hexDigitsToNat (ds : List Char) : Nat :=
  ds.foldl (fun a c => a * 16 + (hexVal c).getD 0) 0

/-- Hexadecimal digit test (both cases). -/
def isHexDigitChar (c : Char) : Bool := (hexVal c).isSome

/-- JS `parseInt(s)` with no radix argument: skip leading whitespace, read
an optional sign, then either a `0x`/`0X` hexadecimal literal or the
leading run of decimal digits, ignoring anything after it; `none` models
`NaN` (and `NaN === n` is false for every number `n`). -/
def jsParseInt (s : String) : Option Int :=
  let cs := s.data.dropWhile isJsSpace
  let signed : Bool × List Char :=
    match cs with
    | '-' :: rest => (true, rest)
    | '+' :: rest => (false, rest)
    | _ => (false, cs)
  let mag : Option Nat :=
    match signed.2 with
    | '0' :: x :: rest =>
        if x = 'x' || x = 'X' then
          let ds := rest.takeWhile isHexDigitChar
          if ds.isEmpty then none else some (hexDigitsToNat ds)
        else some (digitsToNat (('0' :: x :: rest).takeWhile Char.isDigit))
    | rest =>
        let ds := rest.takeWhile Char.isDigit
        if ds.isEmpty then none else some (digitsToNat ds)
  mag.map fun m => if signed.1 then -(m : Int) else (m : Int)

/-- Score contribution of one question in `gradeQuiz`
(`if (sel && parseInt(sel.value) === q.correct) score += 1`), where
`checked name` is the value of the checked radio input in group `name`
(`querySelector` on `input[name=...]:checked`), `none` when none is
checked. -/
def questionScore (checked : String → Option String) (q : Question) : Nat :=
  match checked q.id with
  | some v => if jsParseInt v = some q.correct then 1 else 0
  | none => 0

/-- `gradeQuiz(questions)`: the final value of the `score` accumulator
shown in the result card. -/
def gradeQuiz (questions : List Question) (checked : String → Option String) : Nat :=
  questions.foldl (fun score q => score + questionScore checked q) 0

/-- The quiz API response as observed by `loadQuiz`: the HTTP success flag
`res.ok` and, on success, the `questions` field of the parsed body (`none`
models a body whose `questions` field is absent, which `|| []` replaces by
the empty sequence). -/
structure QuizApiResponse where
  ok : Bool
  questions : Option (List Question)

/-- What `loadQuiz` leaves in the `#quiz-area` container once its `fetch`
resolves: either the fixed failure text (`innerText` assignment followed by
`return`) or the rendered view. -/
inductive QuizAreaContent where
  | failText (msg : String) : QuizAreaContent
  | rendered (view : QuizView) : QuizAreaContent

/-- `loadQuiz` after its `fetch` resolves with response `res`. -/
def loadQuizStep (res : QuizApiResponse) : QuizAreaContent :=
  if res.ok then QuizAreaContent.rendered (renderQuiz (res.questions.getD []))
  else QuizAreaContent.failText "Could not load quiz."

/-! ## Proof-support definitions -/

/-- `true` when the input does not begin with a decimal digit, so that a
number parsed right before it cannot greedily extend into it. -/
def noDigitHead : List Char → Bool
  | [] => true
  | c :: _ => !c.isDigit

mutual

/-- A sufficient fuel for `parseVal` on the serialized form of a value:
one unit per nesting step. -/
def minFuel : Json → Nat
  | Json.null => 1
  | Json.bool _ => 1
  | Json.num _ => 1
  | Json.str _ => 1
  | Json.arr [] => 1
  | Json.arr (e :: es) => 1 + max (minFuel e) (chainFuelA es)
  | Json.obj [] => 1
  | Json.obj (f :: fs) => 1 + max (minFuel f.2) (chainFuelO fs)

/-- Sufficient fuel for `parseArrTail` on a serialized array tail. -/
def chainFuelA : List Json → Nat
  | [] => 1
  | e :: es => 1 + max (minFuel e) (chainFuelA es)

/-- Sufficient fuel for `parseObjTail` on a serialized object tail. -/
def chainFuelO : List (String × Json) → Nat
  | [] => 1
  | f :: fs => 1 + max (minFuel f.2) (chainFuelO fs)

end

/-! ## Whitespace and character lemmas -/

theorem skipWs_cons_of_not_ws {c : Char} (s : List Char) (h : isJsonWs c = false) :
    skipWs (c :: s) = c :: s := by
  simp [skipWs, List.dropWhile_cons, h]

theorem skipWs_append_of_ws {a : List Char} (s : List Char)
    (h : ∀ c ∈ a, isJsonWs c = true) : skipWs (a ++ s) = skipWs s := by
  induction a with
  | nil => rfl
  | cons c t ih =>
      simp only [List.cons_append, skipWs, List.dropWhile_cons, h c (by simp)]
      exact ih fun x hx => h x (by simp [hx])

theorem nlIndent_ws (gap d : Nat) : ∀ c ∈ nlIndent gap d, isJsonWs c = true := by
  intro c hc
  unfold nlIndent at hc
  split at hc
  · simp at hc
  · rcases List.mem_cons.mp hc with h | h
    · subst h; decide
    · rw [List.eq_of_mem_replicate h]; decide

theorem skipWs_nlIndent (gap d : Nat) (s : List Char) :
    skipWs (nlIndent gap d ++ s) = skipWs s :=
  skipWs_append_of_ws s (nlIndent_ws gap d)

theorem digit_not_ws {c : Char} (h : c.isDigit = true) : isJsonWs c = false := by
  have h1 : c ≠ ' ' := by rintro rfl; exact absurd h (by decide)
  have h2 : c ≠ '\t' := by rintro rfl; exact absurd h (by decide)
  have h3 : c ≠ '\n' := by rintro rfl; exact absurd h (by decide)
  have h4 : c ≠ '\r' := by rintro rfl; exact absurd h (by decide)
  simp [isJsonWs, h1, h2, h3, h4]

theorem digit_ne_n {c : Char} (h : c.isDigit = true) : c ≠ 'n' := by
  rintro rfl; exact absurd h (by decide)

theorem digit_ne_t {c : Char} (h : c.isDigit = true) : c ≠ 't' := by
  rintro rfl; exact absurd h (by decide)

theorem digit_ne_f {c : Char} (h : c.isDigit = true) : c ≠ 'f' := by
  rintro rfl; exact absurd h (by decide)

theorem digit_ne_quote {c : Char} (h : c.isDigit = true) : c ≠ '"' := by
  rintro rfl; exact absurd h (by decide)

theorem digit_ne_minus {c : Char} (h : c.isDigit = true) : c ≠ '-' := by
  rintro rfl; exact absurd h (by decide)

theorem digit_ne_lbrack {c : Char} (h : c.isDigit = true) : c ≠ '[' := by
  rintro rfl; exact absurd h (by decide)

theorem digit_ne_lbrace {c : Char} (h : c.isDigit = true) : c ≠ '{' := by
  rintro rfl; exact absurd h (by decide)

theorem digit_ne_rbrack {c : Char} (h : c.isDigit = true) : c ≠ ']' := by
  rintro rfl; exact absurd h (by decide)

/-! ## Number round trip -/

theorem digitChar_toNat {m : Nat} (h : m < 10) : (Char.ofNat (48 + m)).toNat = 48 + m := by
  interval_cases m <;> decide

theorem digitChar_isDigit {m : Nat} (h : m < 10) : (Char.ofNat (48 + m)).isDigit = true := by
  interval_cases m <;> decide

theorem digitChar_ne_zero {m : Nat} (h : m < 10) (hm : m ≠ 0) : Char.ofNat (48 + m) ≠ '0' := by
  interval_cases m <;> first | omega | decide

theorem natDigits_all_digit (n : Nat) : ∀ c ∈ natDigits n, c.isDigit = true := by
  induction n using Nat.strong_induction_on with
  | _ n ih =>
      intro c hc
      rw [natDigits] at hc
      split at hc
      · next h =>
          simp at hc
          subst hc
          exact digitChar_isDigit h
      · next h =>
          rcases List.mem_append.mp hc with h1 | h1
          · exact ih (n / 10) (Nat.div_lt_self (by omega) (by omega)) c h1
          · simp at h1
            subst h1
            exact digitChar_isDigit (Nat.mod_lt _ (by omega))

theorem natDigits_head_nonzero (n : Nat) (hn : n ≠ 0) :
    ∃ c t, natDigits n = c :: t ∧ c ≠ '0' ∧ c.isDigit = true := by
  induction n using Nat.strong_induction_on with
  | _ n ih =>
      rw [natDigits]
      split
      · next h =>
          exact ⟨_, _, rfl, digitChar_ne_zero h hn, digitChar_isDigit h⟩
      · next h =>
          obtain ⟨c, t, hct, hc0, hcd⟩ :=
            ih (n / 10) (Nat.div_lt_self (by omega) (by omega)) (by omega)
          exact ⟨c, t ++ [Char.ofNat (48 + n % 10)], by rw [hct]; rfl, hc0, hcd⟩

theorem digitVal_digitChar {m : Nat} (h : m < 10) : digitVal (Char.ofNat (48 + m)) = m := by
  simp [digitVal, digitChar_toNat h]

theorem readDigits_digits_append (ds : List Char) (hd : ∀ c ∈ ds, c.isDigit = true) :
    ∀ acc rest, readDigits acc (ds ++ rest) =
      readDigits (ds.foldl (fun a c => a * 10 + digitVal c) acc) rest := by
  induction ds with
  | nil => intro acc rest; rfl
  | cons c t ih =>
      intro acc rest
      simp only [List.cons_append, readDigits, hd c (by simp), if_true, List.foldl_cons]
      exact ih (fun x hx => hd x (by simp [hx])) _ rest

theorem readDigits_stop (acc : Nat) (rest : List Char) (h : noDigitHead rest = true) :
    readDigits acc rest = (acc, rest) := by
  cases rest with
  | nil => rfl
  | cons c t =>
      simp only [noDigitHead, Bool.not_eq_true'] at h
      simp [readDigits, h]

theorem natDigits_foldl (n : Nat) : ∀ acc,
    (natDigits n).foldl (fun a c => a * 10 + digitVal c) acc =
      acc * 10 ^ (natDigits n).length + n := by
  induction n using Nat.strong_induction_on with
  | _ n ih =>
      intro acc
      rw [natDigits]
      split
      · next h =>
          simp [digitVal_digitChar h]
      · next h =>
          rw [List.foldl_append, List.length_append,
            ih (n / 10) (Nat.div_lt_self (by omega) (by omega)) acc]
          simp only [List.foldl_cons, List.foldl_nil, List.length_cons, List.length_nil]
          rw [digitVal_digitChar (Nat.mod_lt _ (by omega))]
          rw [pow_succ]
          have := Nat.div_add_mod n 10
          ring_nf
          try omega

theorem parseNat_natDigits (n : Nat) (rest : List Char) (h : noDigitHead rest = true) :
    parseNat (natDigits n ++ rest) = some (n, rest) := by
  rcases eq_or_ne n 0 with rfl | hn
  · rw [show natDigits 0 = ['0'] from by rw [natDigits]; rfl]
    simp [parseNat]
  · obtain ⟨c, t, hct, hc0, hcd⟩ := natDigits_head_nonzero n hn
    have htd : ∀ x ∈ t, x.isDigit = true := by
      intro x hx
      exact natDigits_all_digit n x (by rw [hct]; simp [hx])
    rw [hct]
    simp only [List.cons_append, parseNat, hc0, if_false, hcd, if_true]
    rw [readDigits_digits_append t htd, readDigits_stop _ _ h]
    have := natDigits_foldl n (0 : Nat)
    rw [hct] at this
    simp only [List.foldl_cons, List.foldl_nil, Nat.zero_mul, Nat.zero_add] at this
    rw [← this]

/-! ## String literal round trip -/

theorem hexVal_hexDigitChar {m : Nat} (h : m < 16) : hexVal (hexDigitChar m) = some m := by
  interval_cases m <;> decide

theorem escString_cons (c : Char) (t : List Char) :
    escString (c :: t) = escChar c ++ escString t := by
  simp [escString]

/-- One-step unfolding: closing quote. -/
theorem parseStrBody_quote (cs : List Char) : parseStrBody ('"' :: cs) = some ([], cs) := by
  rw [parseStrBody.eq_def]
  rfl

/-- One-step unfolding: single-letter escape. -/
theorem parseStrBody_esc {e c1 : Char} (he : escCharFor e = some c1) (hu : e ≠ 'u')
    (cs : List Char) :
    parseStrBody ('\\' :: e :: cs) = (parseStrBody cs).map fun r => (c1 :: r.1, r.2) := by
  rw [parseStrBody.eq_def]
  simp [hu, he]

/-- One-step unfolding: `\u` escape with four hex digits. -/
theorem parseStrBody_u {h1 h2 h3 h4 : Char} {a b x d : Nat}
    (ha : hexVal h1 = some a) (hb : hexVal h2 = some b)
    (hx : hexVal h3 = some x) (hd : hexVal h4 = some d) (cs : List Char) :
    parseStrBody ('\\' :: 'u' :: h1 :: h2 :: h3 :: h4 :: cs) =
      (parseStrBody cs).map fun r =>
        (Char.ofNat (((a * 16 + b) * 16 + x) * 16 + d) :: r.1, r.2) := by
  rw [parseStrBody.eq_def]
  simp [ha, hb, hx, hd]

/-- One-step unfolding: plain character. -/
theorem parseStrBody_raw {c : Char} (h1 : c ≠ '"') (h2 : c ≠ '\\')
    (h8 : ¬ c.toNat < 32) (cs : List Char) :
    parseStrBody (c :: cs) = (parseStrBody cs).map fun r => (c :: r.1, r.2) := by
  rw [parseStrBody.eq_def]
  simp [h1, h2, h8]

theorem parseStrBody_escString (cs : List Char) : ∀ rest : List Char,
    parseStrBody (escString cs ++ ('"' :: rest)) = some (cs, rest) := by
  induction cs with
  | nil =>
      intro rest
      show parseStrBody ('"' :: rest) = some ([], rest)
      exact parseStrBody_quote rest
  | cons c t ih =>
      intro rest
      rw [escString_cons, List.append_assoc]
      by_cases h1 : c = '"'
      · subst h1
        rw [show escChar '"' = ['\\', '"'] from rfl]
        rw [show (['\\', '"'] : List Char) ++ (escString t ++ '"' :: rest)
            = '\\' :: '"' :: (escString t ++ '"' :: rest) from rfl]
        rw [parseStrBody_esc (show escCharFor '"' = some '"' from rfl) (by decide), ih rest]
        rfl
      · by_cases h2 : c = '\\'
        · subst h2
          rw [show escChar '\\' = ['\\', '\\'] from rfl]
          rw [show (['\\', '\\'] : List Char) ++ (escString t ++ '"' :: rest)
              = '\\' :: '\\' :: (escString t ++ '"' :: rest) from rfl]
          rw [parseStrBody_esc (show escCharFor '\\' = some '\\' from rfl) (by decide), ih rest]
          rfl
        · by_cases h3 : c = '\x08'
          · subst h3
            rw [show escChar '\x08' = ['\\', 'b'] from rfl]
            rw [show (['\\', 'b'] : List Char) ++ (escString t ++ '"' :: rest)
                = '\\' :: 'b' :: (escString t ++ '"' :: rest) from rfl]
            rw [parseStrBody_esc (show escCharFor 'b' = some '\x08' from rfl) (by decide), ih rest]
            rfl
          · by_cases h4 : c = '\t'
            · subst h4
              rw [show escChar '\t' = ['\\', 't'] from rfl]
              rw [show (['\\', 't'] : List Char) ++ (escString t ++ '"' :: rest)
                  = '\\' :: 't' :: (escString t ++ '"' :: rest) from rfl]
              rw [parseStrBody_esc (show escCharFor 't' = some '\t' from rfl) (by decide), ih rest]
              rfl
            · by_cases h5 : c = '\n'
              · subst h5
                rw [show escChar '\n' = ['\\', 'n'] from rfl]
                rw [show (['\\', 'n'] : List Char) ++ (escString t ++ '"' :: rest)
                    = '\\' :: 'n' :: (escString t ++ '"' :: rest) from rfl]
                rw [parseStrBody_esc (show escCharFor 'n' = some '\n' from rfl) (by decide), ih rest]
                rfl
              · by_cases h6 : c = '\x0c'
                · subst h6
                  rw [show escChar '\x0c' = ['\\', 'f'] from rfl]
                  rw [show (['\\', 'f'] : List Char) ++ (escString t ++ '"' :: rest)
                      = '\\' :: 'f' :: (escString t ++ '"' :: rest) from rfl]
                  rw [parseStrBody_esc (show escCharFor 'f' = some '\x0c' from rfl) (by decide), ih rest]
                  rfl
                · by_cases h7 : c = '\r'
                  · subst h7
                    rw [show escChar '\r' = ['\\', 'r'] from rfl]
                    rw [show (['\\', 'r'] : List Char) ++ (escString t ++ '"' :: rest)
                        = '\\' :: 'r' :: (escString t ++ '"' :: rest) from rfl]
                    rw [parseStrBody_esc (show escCharFor 'r' = some '\r' from rfl) (by decide), ih rest]
                    rfl
                  · by_cases h8 : c.toNat < 32
                    · rw [show escChar c =
                        ['\\', 'u', '0', '0', hexDigitChar (c.toNat / 16),
                          hexDigitChar (c.toNat % 16)] from by
                        simp [escChar, h1, h2, h3, h4, h5, h6, h7, h8]]
                      have hhi : c.toNat / 16 < 16 := by omega
                      have hlo : c.toNat % 16 < 16 := by omega
                      rw [show (['\\', 'u', '0', '0', hexDigitChar (c.toNat / 16),
                            hexDigitChar (c.toNat % 16)] : List Char)
                            ++ (escString t ++ '"' :: rest)
                          = '\\' :: 'u' :: '0' :: '0' :: hexDigitChar (c.toNat / 16)
                            :: hexDigitChar (c.toNat % 16)
                            :: (escString t ++ '"' :: rest) from rfl]
                      rw [parseStrBody_u (show hexVal '0' = some 0 from rfl)
                        (show hexVal '0' = some 0 from rfl)
                        (hexVal_hexDigitChar hhi) (hexVal_hexDigitChar hlo), ih rest]
                      rw [show ((0 * 16 + 0) * 16 + c.toNat / 16) * 16 + c.toNat % 16
                          = c.toNat from by omega]
                      rw [Char.ofNat_toNat]
                      rfl
                    · rw [show escChar c = [c] from by
                        simp [escChar, h1, h2, h3, h4, h5, h6, h7, h8]]
                      rw [show ([c] : List Char) ++ (escString t ++ '"' :: rest)
                          = c :: (escString t ++ '"' :: rest) from rfl]
                      rw [parseStrBody_raw h1 h2 h8, ih rest]
                      rfl

/-! ## Value round trip: support lemmas -/

theorem skipWs_idem (s : List Char) : skipWs (skipWs s) = skipWs s :=
  List.dropWhile_idempotent isJsonWs s

theorem parseVal_ws_prepend (f : Nat) {a : List Char} (Y : List Char)
    (hws : ∀ c ∈ a, isJsonWs c = true) :
    parseVal (f + 1) (a ++ Y) = parseVal (f + 1) Y := by
  rw [parseVal.eq_def]
  conv_rhs => rw [parseVal.eq_def]
  simp only [skipWs_append_of_ws _ hws]

theorem parseArrTail_ws_prepend (f : Nat) {a : List Char} (s : List Char) (acc : List Json)
    (hws : ∀ c ∈ a, isJsonWs c = true) :
    parseArrTail (f + 1) (a ++ s) acc = parseArrTail (f + 1) s acc := by
  rw [parseArrTail.eq_def]
  conv_rhs => rw [parseArrTail.eq_def]
  simp only [skipWs_append_of_ws _ hws]

theorem parseObjTail_ws_prepend (f : Nat) {a : List Char} (s : List Char)
    (acc : List (String × Json)) (hws : ∀ c ∈ a, isJsonWs c = true) :
    parseObjTail (f + 1) (a ++ s) acc = parseObjTail (f + 1) s acc := by
  rw [parseObjTail.eq_def]
  conv_rhs => rw [parseObjTail.eq_def]
  simp only [skipWs_append_of_ws _ hws]

theorem digit_ne_rbrace {c : Char} (h : c.isDigit = true) : c ≠ '}' := by
  rintro rfl; exact absurd h (by decide)

theorem natDigits_cons (n : Nat) :
    ∃ c t, natDigits n = c :: t ∧ c.isDigit = true := by
  induction n using Nat.strong_induction_on with
  | _ n ih =>
      rw [natDigits]
      split
      · next h => exact ⟨_, _, rfl, digitChar_isDigit h⟩
      · next h =>
          obtain ⟨c, t, hct, hcd⟩ := ih (n / 10) (Nat.div_lt_self (by omega) (by omega))
          exact ⟨c, t ++ [Char.ofNat (48 + n % 10)], by rw [hct]; rfl, hcd⟩

theorem serialize_head (gap d : Nat) (j : Json) :
    ∃ c t, serialize gap d j = c :: t ∧ isJsonWs c = false ∧ c ≠ ']' ∧ c ≠ '}' := by
  match j with
  | Json.null => exact ⟨'n', _, by rw [serialize.eq_def], by decide, by decide, by decide⟩
  | Json.bool true => exact ⟨'t', _, by rw [serialize.eq_def], by decide, by decide, by decide⟩
  | Json.bool false => exact ⟨'f', _, by rw [serialize.eq_def], by decide, by decide, by decide⟩
  | Json.str s => exact ⟨'"', _, by rw [serialize.eq_def]; rfl, by decide, by decide, by decide⟩
  | Json.arr [] => exact ⟨'[', _, by rw [serialize.eq_def], by decide, by decide, by decide⟩
  | Json.arr (e :: es) =>
      exact ⟨'[', _, by rw [serialize.eq_def], by decide, by decide, by decide⟩
  | Json.obj [] => exact ⟨'{', _, by rw [serialize.eq_def], by decide, by decide, by decide⟩
  | Json.obj (f :: fs) =>
      exact ⟨'{', _, by rw [serialize.eq_def], by decide, by decide, by decide⟩
  | Json.num n =>
      rw [show serialize gap d (Json.num n) = intChars n from by rw [serialize.eq_def]]
      unfold intChars
      split
      · exact ⟨'-', _, rfl, by decide, by decide, by decide⟩
      · obtain ⟨c, t, hct, hcd⟩ := natDigits_cons n.natAbs
        exact ⟨c, t, hct, digit_not_ws hcd, digit_ne_rbrack hcd, digit_ne_rbrace hcd⟩

theorem minFuel_pos (j : Json) : 1 ≤ minFuel j := by
  match j with
  | Json.null | Json.bool _ | Json.num _ | Json.str _ => simp [minFuel]
  | Json.arr [] => simp [minFuel]
  | Json.arr (e :: es) => rw [minFuel]; omega
  | Json.obj [] => simp [minFuel]
  | Json.obj (f :: fs) => rw [minFuel]; omega

theorem chainFuelA_pos (es : List Json) : 1 ≤ chainFuelA es := by
  cases es with
  | nil => simp [chainFuelA]
  | cons e t => rw [chainFuelA]; omega

theorem chainFuelO_pos (fs : List (String × Json)) : 1 ≤ chainFuelO fs := by
  cases fs with
  | nil => simp [chainFuelO]
  | cons f t => rw [chainFuelO]; omega

theorem parseVal_digitTok (f : Nat) {c : Char} (cs : List Char) (hd : c.isDigit = true) :
    parseVal (f + 1) (c :: cs) =
      (parseNat (c :: cs)).map fun r => (Json.num (r.1 : Int), r.2) := by
  rw [parseVal.eq_def]
  simp only [skipWs_cons_of_not_ws _ (digit_not_ws hd)]
  simp [digit_ne_n hd, digit_ne_t hd, digit_ne_f hd, digit_ne_quote hd, digit_ne_minus hd,
    digit_ne_lbrack hd, digit_ne_lbrace hd, hd]

theorem parseVal_lbrackTok (f : Nat) (cs : List Char) :
    parseVal (f + 1) ('[' :: cs) =
      (match skipWs cs with
       | [] => none
       | c1 :: cs1 =>
           if c1 = ']' then some (Json.arr [], cs1)
           else
             match parseVal f (c1 :: cs1) with
             | some (j, cs2) => parseArrTail f cs2 [j]
             | none => none) := rfl

theorem parseVal_lbraceTok (f : Nat) (cs : List Char) :
    parseVal (f + 1) ('{' :: cs) =
      (match skipWs cs with
       | [] => none
       | c1 :: cs1 =>
           if c1 = '}' then some (Json.obj [], cs1)
           else if c1 = '"' then
             match parseStrBody cs1 with
             | some (k, cs2) =>
                 (match skipWs cs2 with
                  | ':' :: cs3 =>
                     (match parseVal f cs3 with
                      | some (v, cs4) => parseObjTail f cs4 [(String.mk k, v)]
                      | none => none)
                  | _ => none)
             | none => none
           else none) := rfl

theorem serArrTail_ndh (gap d : Nat) (es : List Json) (rest : List Char) :
    noDigitHead (serArrTail gap d es ++ rest) = true := by
  cases es with
  | nil =>
      rw [show serArrTail gap d [] = nlIndent gap d ++ [']'] from by rw [serArrTail.eq_def]]
      unfold nlIndent
      split
      · simp [noDigitHead]
      · simp [noDigitHead]
  | cons e t =>
      rw [show serArrTail gap d (e :: t) = ',' ::
          (nlIndent gap (d + 1) ++ serialize gap (d + 1) e ++ serArrTail gap d t)
          from by rw [serArrTail.eq_def]]
      simp [noDigitHead]

theorem serObjTail_ndh (gap d : Nat) (fs : List (String × Json)) (rest : List Char) :
    noDigitHead (serObjTail gap d fs ++ rest) = true := by
  cases fs with
  | nil =>
      rw [show serObjTail gap d [] = nlIndent gap d ++ ['}'] from by rw [serObjTail.eq_def]]
      unfold nlIndent
      split
      · simp [noDigitHead]
      · simp [noDigitHead]
  | cons f t =>
      rw [show serObjTail gap d (f :: t) = ',' ::
          (nlIndent gap (d + 1) ++ strLit f.1 ++ colonSep gap ++
            serialize gap (d + 1) f.2 ++ serObjTail gap d t)
          from by rw [serObjTail.eq_def]]
      simp [noDigitHead]

theorem colonSep_shape (gap : Nat) :
    ∃ ct, colonSep gap = ':' :: ct ∧ ∀ c ∈ ct, isJsonWs c = true := by
  unfold colonSep
  split
  · exact ⟨[], rfl, by simp⟩
  · refine ⟨[' '], rfl, ?_⟩
    intro c hc
    simp at hc
    subst hc
    decide

theorem parseArrTail_chain (gap d : Nat) : ∀ es : List Json,
    (∀ e ∈ es, ∀ fuel rest, minFuel e ≤ fuel → noDigitHead rest = true →
      parseVal fuel (serialize gap (d + 1) e ++ rest) = some (e, rest)) →
    ∀ fuel acc rest, chainFuelA es ≤ fuel → noDigitHead rest = true →
      parseArrTail fuel (serArrTail gap d es ++ rest) acc =
        some (Json.arr (acc.reverse ++ es), rest) := by
  intro es
  induction es with
  | nil =>
      intro _ fuel acc rest hf hr
      obtain ⟨f, rfl⟩ : ∃ f, fuel = f + 1 :=
        ⟨fuel - 1, by have := chainFuelA_pos ([] : List Json); omega⟩
      rw [show serArrTail gap d [] = nlIndent gap d ++ [']'] from by rw [serArrTail.eq_def]]
      rw [List.append_assoc, parseArrTail_ws_prepend f _ acc (nlIndent_ws gap d)]
      rw [show ([']'] : List Char) ++ rest = ']' :: rest from rfl]
      rw [parseArrTail.eq_def]
      simp [skipWs_cons_of_not_ws _ (show isJsonWs ']' = false from by decide)]
  | cons e es ihc =>
      intro hIH fuel acc rest hf hr
      rw [chainFuelA] at hf
      obtain ⟨f, rfl⟩ : ∃ f, fuel = f + 1 := ⟨fuel - 1, by omega⟩
      have hfe : minFuel e ≤ f := by omega
      have hfes : chainFuelA es ≤ f := by omega
      obtain ⟨f2, rfl⟩ : ∃ f2, f = f2 + 1 := ⟨f - 1, by have := minFuel_pos e; omega⟩
      rw [show serArrTail gap d (e :: es) = ',' ::
          (nlIndent gap (d + 1) ++ serialize gap (d + 1) e ++ serArrTail gap d es)
          from by rw [serArrTail.eq_def]]
      rw [List.cons_append, parseArrTail.eq_def]
      simp only [skipWs_cons_of_not_ws _ (show isJsonWs ',' = false from by decide)]
      simp only [List.append_assoc]
      rw [parseVal_ws_prepend f2 _ (nlIndent_ws gap (d + 1))]
      rw [hIH e (by simp) (f2 + 1) (serArrTail gap d es ++ rest) hfe
        (serArrTail_ndh gap d es rest)]
      simp only [reduceIte]
      rw [ihc (fun x hx => hIH x (by simp [hx])) (f2 + 1) (e :: acc) rest hfes hr]
      simp

theorem parseObjTail_chain (gap d : Nat) : ∀ fs : List (String × Json),
    (∀ f ∈ fs, ∀ fuel rest, minFuel f.2 ≤ fuel → noDigitHead rest = true →
      parseVal fuel (serialize gap (d + 1) f.2 ++ rest) = some (f.2, rest)) →
    ∀ fuel acc rest, chainFuelO fs ≤ fuel → noDigitHead rest = true →
      parseObjTail fuel (serObjTail gap d fs ++ rest) acc =
        some (Json.obj (acc.reverse ++ fs), rest) := by
  intro fs
  induction fs with
  | nil =>
      intro _ fuel acc rest hf hr
      obtain ⟨f, rfl⟩ : ∃ f, fuel = f + 1 :=
        ⟨fuel - 1, by have := chainFuelO_pos ([] : List (String × Json)); omega⟩
      rw [show serObjTail gap d [] = nlIndent gap d ++ ['}'] from by rw [serObjTail.eq_def]]
      rw [List.append_assoc, parseObjTail_ws_prepend f _ acc (nlIndent_ws gap d)]
      rw [show (['}'] : List Char) ++ rest = '}' :: rest from rfl]
      rw [parseObjTail.eq_def]
      simp [skipWs_cons_of_not_ws _ (show isJsonWs '}' = false from by decide)]
  | cons p fs ihc =>
      intro hIH fuel acc rest hf hr
      rw [chainFuelO] at hf
      obtain ⟨f, rfl⟩ : ∃ f, fuel = f + 1 := ⟨fuel - 1, by omega⟩
      have hfp : minFuel p.2 ≤ f := by omega
      have hfps : chainFuelO fs ≤ f := by omega
      obtain ⟨f2, rfl⟩ : ∃ f2, f = f2 + 1 := ⟨f - 1, by have := minFuel_pos p.2; omega⟩
      rw [show serObjTail gap d (p :: fs) = ',' ::
          (nlIndent gap (d + 1) ++ strLit p.1 ++ colonSep gap ++
            serialize gap (d + 1) p.2 ++ serObjTail gap d fs)
          from by rw [serObjTail.eq_def]]
      rw [List.cons_append, parseObjTail.eq_def]
      simp only [skipWs_cons_of_not_ws _ (show isJsonWs ',' = false from by decide)]
      simp only [List.append_assoc]
      rw [skipWs_append_of_ws _ (nlIndent_ws gap (d + 1))]
      rw [show strLit p.1 ++ (colonSep gap ++ (serialize gap (d + 1) p.2 ++
            (serObjTail gap d fs ++ rest)))
          = '"' :: (escString p.1.data ++ ('"' :: (colonSep gap ++ (serialize gap (d + 1) p.2 ++
            (serObjTail gap d fs ++ rest))))) from by
        simp [strLit, List.append_assoc]]
      rw [skipWs_cons_of_not_ws _ (show isJsonWs '"' = false from by decide)]
      simp only [reduceIte]
      rw [parseStrBody_escString]
      obtain ⟨ct, hcs, hcw⟩ := colonSep_shape gap
      rw [hcs]
      simp only [List.cons_append]
      rw [skipWs_cons_of_not_ws _ (show isJsonWs ':' = false from by decide)]
      simp only [reduceIte]
      rw [parseVal_ws_prepend f2 _ hcw]
      rw [hIH p (by simp) (f2 + 1) (serObjTail gap d fs ++ rest) hfp
        (serObjTail_ndh gap d fs rest)]
      simp only [reduceIte]
      rw [ihc (fun x hx => hIH x (by simp [hx])) (f2 + 1) ((String.mk p.1.data, p.2) :: acc)
        rest hfps hr]
      simp

theorem parseVal_serialize : ∀ (N : Nat) (j : Json), sizeOf j ≤ N →
    ∀ gap d fuel rest, minFuel j ≤ fuel → noDigitHead rest = true →
      parseVal fuel (serialize gap d j ++ rest) = some (j, rest) := by
  intro N
  induction N with
  | zero =>
      intro j hs
      exfalso
      cases j <;> simp_arith at hs
  | succ N ihN =>
      intro j hs gap d fuel rest hf hr
      obtain ⟨f, rfl⟩ : ∃ f, fuel = f + 1 := ⟨fuel - 1, by have := minFuel_pos j; omega⟩
      match j with
      | Json.null =>
          rw [show serialize gap d Json.null = ['n', 'u', 'l', 'l'] from by
            rw [serialize.eq_def]]
          rfl
      | Json.bool true =>
          rw [show serialize gap d (Json.bool true) = ['t', 'r', 'u', 'e'] from by
            rw [serialize.eq_def]]
          rfl
      | Json.bool false =>
          rw [show serialize gap d (Json.bool false) = ['f', 'a', 'l', 's', 'e'] from by
            rw [serialize.eq_def]]
          rfl
      | Json.str s =>
          rw [show serialize gap d (Json.str s) = '"' :: (escString s.data ++ ['"']) from by
            rw [serialize.eq_def]; rfl]
          rw [List.cons_append, List.append_assoc]
          rw [show (['"'] : List Char) ++ rest = '"' :: rest from rfl]
          rw [show parseVal (f + 1) ('"' :: (escString s.data ++ '"' :: rest))
              = (parseStrBody (escString s.data ++ '"' :: rest)).map
                  (fun r => (Json.str (String.mk r.1), r.2)) from rfl]
          rw [parseStrBody_escString]
          rfl
      | Json.num n =>
          rw [show serialize gap d (Json.num n) = intChars n from by rw [serialize.eq_def]]
          by_cases hn : n < 0
          · rw [show intChars n = '-' :: natDigits n.natAbs from by
              unfold intChars; rw [if_pos hn]]
            rw [List.cons_append]
            rw [show parseVal (f + 1) ('-' :: (natDigits n.natAbs ++ rest))
                = (parseNat (natDigits n.natAbs ++ rest)).map
                    (fun r => (Json.num (-(r.1 : Int)), r.2)) from rfl]
            rw [parseNat_natDigits _ _ hr]
            have hna : -((n.natAbs : Int)) = n := by omega
            rw [show Option.map (fun r => (Json.num (-(r.1 : Int)), r.2))
              (some (n.natAbs, rest)) = some (Json.num (-((n.natAbs : Int))), rest) from rfl]
            rw [hna]
          · rw [show intChars n = natDigits n.natAbs from by
              unfold intChars; rw [if_neg hn]]
            obtain ⟨c, t, hct, hcd⟩ := natDigits_cons n.natAbs
            rw [hct, List.cons_append]
            rw [parseVal_digitTok f _ hcd]
            rw [← List.cons_append, ← hct]
            rw [parseNat_natDigits _ _ hr]
            have hna : ((n.natAbs : Int)) = n := by omega
            rw [show Option.map (fun r => (Json.num ((r.1 : Int)), r.2))
              (some (n.natAbs, rest)) = some (Json.num ((n.natAbs : Int)), rest) from rfl]
            rw [hna]
      | Json.arr [] =>
          rw [show serialize gap d (Json.arr []) = ['[', ']'] from by rw [serialize.eq_def]]
          rfl
      | Json.arr (e :: es) =>
          rw [minFuel] at hf
          have hfe : minFuel e ≤ f := by omega
          have hfes : chainFuelA es ≤ f := by omega
          simp_arith at hs
          have hse : sizeOf e ≤ N := by omega
          have hses : ∀ x ∈ es, sizeOf x ≤ N := by
            intro x hx
            have := List.sizeOf_lt_of_mem hx
            omega
          rw [show serialize gap d (Json.arr (e :: es)) = '[' ::
              (nlIndent gap (d + 1) ++ serialize gap (d + 1) e ++ serArrTail gap d es)
              from by rw [serialize.eq_def]]
          rw [List.cons_append, parseVal_lbrackTok]
          simp only [List.append_assoc]
          rw [skipWs_append_of_ws _ (nlIndent_ws gap (d + 1))]
          obtain ⟨c, t, hct, hws, hrb, hrbr⟩ := serialize_head gap (d + 1) e
          rw [hct]
          simp only [List.cons_append]
          rw [skipWs_cons_of_not_ws _ hws]
          simp only [hrb, reduceIte, if_false]
          rw [show c :: (t ++ (serArrTail gap d es ++ rest))
              = (c :: t) ++ (serArrTail gap d es ++ rest) from rfl, ← hct]
          rw [ihN e hse gap (d + 1) f _ hfe (serArrTail_ndh gap d es rest)]
          show parseArrTail f (serArrTail gap d es ++ rest) [e]
            = some (Json.arr (e :: es), rest)
          rw [parseArrTail_chain gap d es
            (fun x hx fuel2 rest2 hf2 hr2 => ihN x (hses x hx) gap (d + 1) fuel2 rest2 hf2 hr2)
            f [e] rest hfes hr]
          simp
      | Json.obj [] =>
          rw [show serialize gap d (Json.obj []) = ['{', '}'] from by rw [serialize.eq_def]]
          rfl
      | Json.obj ((k, v) :: fs) =>
          rw [show minFuel (Json.obj ((k, v) :: fs))
              = 1 + max (minFuel v) (chainFuelO fs) from by rw [minFuel]] at hf
          have hfv : minFuel v ≤ f := by omega
          have hfps : chainFuelO fs ≤ f := by omega
          simp_arith at hs
          have hsv : sizeOf v ≤ N := by omega
          have hsfs : ∀ x ∈ fs, sizeOf x.2 ≤ N := by
            intro x hx
            have h1 := List.sizeOf_lt_of_mem hx
            have h2 : sizeOf x.2 < sizeOf x := by
              obtain ⟨a, b⟩ := x
              simp_arith
            omega
          obtain ⟨f2, rfl⟩ : ∃ f2, f = f2 + 1 := ⟨f - 1, by have := minFuel_pos v; omega⟩
          rw [show serialize gap d (Json.obj ((k, v) :: fs)) = '{' ::
              (nlIndent gap (d + 1) ++ strLit k ++ colonSep gap ++
                serialize gap (d + 1) v ++ serObjTail gap d fs)
              from by rw [serialize.eq_def]]
          rw [List.cons_append, parseVal_lbraceTok]
          simp only [List.append_assoc]
          rw [skipWs_append_of_ws _ (nlIndent_ws gap (d + 1))]
          rw [show strLit k ++ (colonSep gap ++ (serialize gap (d + 1) v ++
                (serObjTail gap d fs ++ rest)))
              = '"' :: (escString k.data ++ ('"' :: (colonSep gap ++ (serialize gap (d + 1) v ++
                (serObjTail gap d fs ++ rest))))) from by simp [strLit, List.append_assoc]]
          rw [skipWs_cons_of_not_ws _ (show isJsonWs '"' = false from by decide)]
          simp only [reduceIte]
          rw [parseStrBody_escString]
          obtain ⟨ct, hcs, hcw⟩ := colonSep_shape gap
          rw [hcs]
          simp only [List.cons_append]
          rw [skipWs_cons_of_not_ws _ (show isJsonWs ':' = false from by decide)]
          simp only [reduceIte]
          rw [parseVal_ws_prepend f2 _ hcw]
          rw [ihN v hsv gap (d + 1) (f2 + 1) _ hfv (serObjTail_ndh gap d fs rest)]
          show parseObjTail (f2 + 1) (serObjTail gap d fs ++ rest) [(String.mk k.data, v)]
            = some (Json.obj ((k, v) :: fs), rest)
          rw [parseObjTail_chain gap d fs
            (fun x hx fuel2 rest2 hf2 hr2 =>
              ihN x.2 (hsfs x hx) gap (d + 1) fuel2 rest2 hf2 hr2)
            (f2 + 1) [(String.mk k.data, v)] rest hfps hr]
          simp

theorem chainFuelA_le_len (gap d : Nat) : ∀ es : List Json,
    (∀ e ∈ es, minFuel e ≤ (serialize gap (d + 1) e).length) →
    chainFuelA es ≤ (serArrTail gap d es).length := by
  intro es
  induction es with
  | nil =>
      intro _
      rw [show serArrTail gap d [] = nlIndent gap d ++ [']'] from by rw [serArrTail.eq_def]]
      rw [chainFuelA]
      simp
  | cons e es ihc =>
      intro hIH
      rw [show serArrTail gap d (e :: es) = ',' ::
          (nlIndent gap (d + 1) ++ serialize gap (d + 1) e ++ serArrTail gap d es)
          from by rw [serArrTail.eq_def]]
      rw [chainFuelA]
      have h1 := hIH e (by simp)
      have h2 := ihc fun x hx => hIH x (by simp [hx])
      simp only [List.length_cons, List.length_append]
      omega

theorem chainFuelO_le_len (gap d : Nat) : ∀ fs : List (String × Json),
    (∀ f ∈ fs, minFuel f.2 ≤ (serialize gap (d + 1) f.2).length) →
    chainFuelO fs ≤ (serObjTail gap d fs).length := by
  intro fs
  induction fs with
  | nil =>
      intro _
      rw [show serObjTail gap d [] = nlIndent gap d ++ ['}'] from by rw [serObjTail.eq_def]]
      rw [chainFuelO]
      simp
  | cons p fs ihc =>
      intro hIH
      rw [show serObjTail gap d (p :: fs) = ',' ::
          (nlIndent gap (d + 1) ++ strLit p.1 ++ colonSep gap ++
            serialize gap (d + 1) p.2 ++ serObjTail gap d fs)
          from by rw [serObjTail.eq_def]]
      rw [chainFuelO]
      have h1 := hIH p (by simp)
      have h2 := ihc fun x hx => hIH x (by simp [hx])
      simp only [List.length_cons, List.length_append]
      omega

theorem minFuel_one_le_len (gap d : Nat) (j : Json) (h1 : minFuel j = 1) :
    minFuel j ≤ (serialize gap d j).length := by
  obtain ⟨c, t, hct, -, -, -⟩ := serialize_head gap d j
  rw [hct, h1]
  simp

theorem minFuel_le_len : ∀ (N : Nat) (j : Json), sizeOf j ≤ N →
    ∀ gap d, minFuel j ≤ (serialize gap d j).length := by
  intro N
  induction N with
  | zero =>
      intro j hs
      exfalso
      cases j <;> simp_arith at hs
  | succ N ihN =>
      intro j hs gap d
      match j with
      | Json.null | Json.bool _ | Json.num _ | Json.str _ | Json.arr [] | Json.obj [] =>
          exact minFuel_one_le_len gap d _ (by rw [minFuel])
      | Json.arr (e :: es) =>
          simp_arith at hs
          have hse : sizeOf e ≤ N := by omega
          have hses : ∀ x ∈ es, sizeOf x ≤ N := by
            intro x hx
            have := List.sizeOf_lt_of_mem hx
            omega
          rw [show serialize gap d (Json.arr (e :: es)) = '[' ::
              (nlIndent gap (d + 1) ++ serialize gap (d + 1) e ++ serArrTail gap d es)
              from by rw [serialize.eq_def]]
          rw [minFuel]
          have h1 := ihN e hse gap (d + 1)
          have h2 := chainFuelA_le_len gap d es fun x hx => ihN x (hses x hx) gap (d + 1)
          simp only [List.length_cons, List.length_append]
          omega
      | Json.obj ((k, v) :: fs) =>
          simp_arith at hs
          have hsv : sizeOf v ≤ N := by omega
          have hsfs : ∀ x ∈ fs, sizeOf x.2 ≤ N := by
            intro x hx
            have h1 := List.sizeOf_lt_of_mem hx
            have h2 : sizeOf x.2 < sizeOf x := by
              obtain ⟨a, b⟩ := x
              simp_arith
            omega
          rw [show serialize gap d (Json.obj ((k, v) :: fs)) = '{' ::
              (nlIndent gap (d + 1) ++ strLit k ++ colonSep gap ++
                serialize gap (d + 1) v ++ serObjTail gap d fs)
              from by rw [serialize.eq_def]]
          rw [show minFuel (Json.obj ((k, v) :: fs))
              = 1 + max (minFuel v) (chainFuelO fs) from by rw [minFuel]]
          have h1 := ihN v hsv gap (d + 1)
          have h2 := chainFuelO_le_len gap d fs fun x hx => ihN x.2 (hsfs x hx) gap (d + 1)
          simp only [List.length_cons, List.length_append]
          omega

/-- The serialize-then-parse round trip: `JSON.parse` recovers exactly the
value `JSON.stringify` printed, for every gap setting. -/
theorem jsonParse_jsonStringify (j : Json) (gap : Nat) :
    jsonParse (jsonStringify j gap) = some j := by
  unfold jsonParse jsonStringify
  rw [show (String.mk (serialize gap 0 j)).data = serialize gap 0 j from rfl]
  rw [show (String.mk (serialize gap 0 j)).length = (serialize gap 0 j).length from rfl]
  have hle : minFuel j ≤ (serialize gap 0 j).length + 1 := by
    have := minFuel_le_len (sizeOf j) j le_rfl gap 0
    omega
  have hrt := parseVal_serialize (sizeOf j) j le_rfl gap 0
    ((serialize gap 0 j).length + 1) [] hle (by rfl)
  rw [List.append_nil] at hrt
  rw [hrt]
  rfl

/-! ## Bookmark store lemmas -/

theorem jsonStringify_ne_empty (l : Json) (gap : Nat) : jsonStringify l gap ≠ "" := by
  obtain ⟨c, t, hct, -, -, -⟩ := serialize_head gap 0 l
  unfold jsonStringify
  rw [hct]
  intro h
  have h2 : (String.mk (c :: t)).data = ("" : String).data := congrArg String.data h
  simp at h2

/-- Reading back a just-saved list recovers it exactly. -/
theorem loadBookmarks_saveBookmarks (l : Json) : loadBookmarks (saveBookmarks l) = l := by
  unfold saveBookmarks loadBookmarks
  show (if jsonStringify l 0 = "" then Json.arr []
    else match jsonParse (jsonStringify l 0) with
      | some j => j
      | none => Json.arr []) = l
  rw [if_neg (jsonStringify_ne_empty l 0), jsonParse_jsonStringify l 0]

/-- Inversion of a successful `addBookmark` call: the stored value parsed
to a list with no (title, date) duplicate, and the new state holds the
record prepended to that list. -/
theorem addBookmark_true_inv (st st1 : Storage) (e : Json)
    (h : addBookmark st e = some (true, st1)) :
    ∃ xs, loadBookmarks st = Json.arr xs ∧
      (∀ b ∈ xs, bookmarkMatches b e = false) ∧
      st1 = saveBookmarks (Json.arr (e :: xs)) := by
  unfold addBookmark at h
  rcases hl : loadBookmarks st with _ | b | n | s | xs | fs <;> rw [hl] at h
  case null => exact absurd h (by simp)
  case bool => exact absurd h (by simp)
  case num => exact absurd h (by simp)
  case str => exact absurd h (by simp)
  case obj => exact absurd h (by simp)
  case arr =>
      have h2 : (if (xs.any fun b => bookmarkMatches b e) = true then some (false, st)
          else some (true, saveBookmarks (Json.arr (e :: xs)))) = some (true, st1) := h
      by_cases hany : xs.any (fun b => bookmarkMatches b e) = true
      · rw [if_pos hany] at h2
        exact absurd h2 (by simp)
      · rw [if_neg hany] at h2
        simp only [Option.some.injEq, Prod.mk.injEq, true_and] at h2
        refine ⟨xs, rfl, ?_, h2.symm⟩
        intro b hb
        simp only [List.any_eq_true, not_exists, not_and, Bool.not_eq_true] at hany
        exact hany b hb

/-! ## Claim theorems: bookmark store -/

/-- C3: when a record's (title, date) pair already occurs in the stored
list, `addBookmark` returns `false` and leaves the persisted state (hence
the persisted list) completely unchanged; in particular after a successful
`add`, a second `add` with the same (title, date) pair returns `false` and
leaves the state as it was after the first call. -/
theorem addBookmark_duplicate_spec :
    (∀ (st : Storage) (eventObj : Json) (xs : List Json),
       loadBookmarks st = Json.arr xs →
       (∃ b ∈ xs, bookmarkMatches b eventObj = true) →
       addBookmark st eventObj = some (false, st))
    ∧ (∀ (st st1 : Storage) (e1 e2 : Json),
       addBookmark st e1 = some (true, st1) →
       bookmarkMatches e1 e2 = true →
       addBookmark st1 e2 = some (false, st1)) := by
  constructor
  · intro st e xs hload hdup
    unfold addBookmark
    rw [hload]
    show (if (xs.any fun b => bookmarkMatches b e) = true then some (false, st)
        else some (true, saveBookmarks (Json.arr (e :: xs)))) = some (false, st)
    rw [if_pos (List.any_eq_true.mpr hdup)]
  · intro st st1 e1 e2 hadd hm
    obtain ⟨xs, -, -, hst1⟩ := addBookmark_true_inv st st1 e1 hadd
    subst hst1
    unfold addBookmark
    rw [loadBookmarks_saveBookmarks]
    show (if ((e1 :: xs).any fun b => bookmarkMatches b e2) = true
        then some (false, saveBookmarks (Json.arr (e1 :: xs)))
        else some (true, saveBookmarks (Json.arr (e2 :: e1 :: xs))))
      = some (false, saveBookmarks (Json.arr (e1 :: xs)))
    rw [if_pos (List.any_eq_true.mpr ⟨e1, by simp, hm⟩)]

/-- C3 witness: adding a record whose (title, date) already occurs in the
stored list returns `false` with the state unchanged. -/
theorem addBookmark_duplicate_spec_witness :
    addBookmark (some "[\x7b\"title\":\"a\",\"date\":\"b\"\x7d]")
        (Json.obj [("title", Json.str "a"), ("date", Json.str "b")])
      = some (false, some "[\x7b\"title\":\"a\",\"date\":\"b\"\x7d]") :=
  addBookmark_duplicate_spec.1 _ _
    [Json.obj [("title", Json.str "a"), ("date", Json.str "b")]]
    rfl ⟨Json.obj [("title", Json.str "a"), ("date", Json.str "b")], by simp, rfl⟩

/-- C4: when the record's (title, date) pair does not occur in the stored
list, `addBookmark` persists the list with the record prepended (index 0)
and returns `true`. -/
theorem addBookmark_new_spec :
    ∀ (st : Storage) (eventObj : Json) (xs : List Json),
      loadBookmarks st = Json.arr xs →
      (∀ b ∈ xs, bookmarkMatches b eventObj = false) →
      ∃ st1, addBookmark st eventObj = some (true, st1) ∧
        loadBookmarks st1 = Json.arr (eventObj :: xs) := by
  intro st e xs hload hnodup
  refine ⟨saveBookmarks (Json.arr (e :: xs)), ?_, loadBookmarks_saveBookmarks _⟩
  unfold addBookmark
  rw [hload]
  show (if (xs.any fun b => bookmarkMatches b e) = true then some (false, st)
      else some (true, saveBookmarks (Json.arr (e :: xs))))
    = some (true, saveBookmarks (Json.arr (e :: xs)))
  have hany : ¬ (xs.any fun b => bookmarkMatches b e) = true := by
    simp only [List.any_eq_true, not_exists, not_and, Bool.not_eq_true]
    exact hnodup
  rw [if_neg hany]

/-- C4 witness: adding to an empty store persists the record at index 0
and returns `true`. -/
theorem addBookmark_new_spec_witness :
    ∃ st1, addBookmark none (Json.obj [("title", Json.str "a"), ("date", Json.str "b")])
        = some (true, st1) ∧
      loadBookmarks st1
        = Json.arr [Json.obj [("title", Json.str "a"), ("date", Json.str "b")]] :=
  addBookmark_new_spec none _ [] rfl (by simp)

/-- C5: `loadBookmarks` is a total function of the stored value (it never
throws): an absent key yields the empty list, the empty string yields the
empty list, and any string `JSON.parse` rejects yields the empty list. -/
theorem loadBookmarks_robust :
    loadBookmarks none = Json.arr []
    ∧ loadBookmarks (some "") = Json.arr []
    ∧ ∀ raw : String, jsonParse raw = none → loadBookmarks (some raw) = Json.arr [] := by
  refine ⟨rfl, rfl, ?_⟩
  intro raw hparse
  unfold loadBookmarks
  show (if raw = "" then Json.arr []
    else match jsonParse raw with
      | some j => j
      | none => Json.arr []) = Json.arr []
  by_cases hr : raw = ""
  · rw [if_pos hr]
  · rw [if_neg hr, hparse]

/-- C5 witness: a persisted value that is not valid JSON is read back as
the empty list. -/
theorem loadBookmarks_robust_witness :
    loadBookmarks (some "not json") = Json.arr [] :=
  loadBookmarks_robust.2.2 "not json" rfl

/-- C6: parsing the exported file content reproduces exactly the list that
`loadBookmarks` returned at the moment of export, for every storage
state. -/
theorem exportContent_roundtrip :
    ∀ st : Storage, jsonParse (exportContent st) = some (loadBookmarks st) :=
  fun st => jsonParse_jsonStringify (loadBookmarks st) 2

/-- C9: a successful `addBookmark` leaves every previously stored record
present, in the same relative order (the old list is exactly the tail of
the new one), and grows the stored list by exactly one. -/
theorem addBookmark_frame :
    ∀ (st st1 : Storage) (eventObj : Json) (xs : List Json),
      loadBookmarks st = Json.arr xs →
      addBookmark st eventObj = some (true, st1) →
      ∃ ys, loadBookmarks st1 = Json.arr ys ∧
        ys.length = xs.length + 1 ∧ ys.drop 1 = xs ∧
        ys.take 1 = [eventObj] := by
  intro st st1 e xs hload hadd
  obtain ⟨zs, hz, -, hst1⟩ := addBookmark_true_inv st st1 e hadd
  rw [hload] at hz
  cases hz
  subst hst1
  exact ⟨e :: xs, loadBookmarks_saveBookmarks _, by simp, by simp, by simp⟩

/-- C9 witness: the concrete first add grows the empty list to a
one-element list with the record in front. -/
theorem addBookmark_frame_witness :
    ∃ ys, loadBookmarks (some "[\x7b\"title\":\"a\",\"date\":\"b\"\x7d]") = Json.arr ys ∧
      ys.length = ([] : List Json).length + 1 ∧ ys.drop 1 = ([] : List Json) ∧
      ys.take 1 = [Json.obj [("title", Json.str "a"), ("date", Json.str "b")]] :=
  addBookmark_frame none (some "[\x7b\"title\":\"a\",\"date\":\"b\"\x7d]")
    (Json.obj [("title", Json.str "a"), ("date", Json.str "b")]) [] rfl rfl

/-! ## Claim theorems: quiz -/

theorem gradeQuiz_foldl_init (checked : String → Option String) (qs : List Question) :
    ∀ a, qs.foldl (fun s q => s + questionScore checked q) a
      = a + qs.foldl (fun s q => s + questionScore checked q) 0 := by
  induction qs with
  | nil => intro a; simp
  | cons q t ih =>
      intro a
      simp only [List.foldl_cons]
      rw [ih (a + questionScore checked q), ih (0 + questionScore checked q)]
      omega

theorem gradeQuiz_cons (checked : String → Option String) (q : Question)
    (qs : List Question) :
    gradeQuiz (q :: qs) checked = questionScore checked q + gradeQuiz qs checked := by
  unfold gradeQuiz
  simp only [List.foldl_cons]
  rw [gradeQuiz_foldl_init checked qs (0 + questionScore checked q)]
  omega

theorem questionScore_le_one (checked : String → Option String) (q : Question) :
    questionScore checked q ≤ 1 := by
  unfold questionScore
  rcases checked q.id with _ | v
  · exact Nat.zero_le 1
  · show (if jsParseInt v = some q.correct then 1 else 0) ≤ 1
    split <;> omega

/-- C1: `gradeQuiz` counts a question exactly when its exclusive-choice
group has a checked input whose value parses (as `parseInt` does) to the
question's `correct` value; with all-correct selections the score is the
number of questions, with no selections it is 0. -/
theorem gradeQuiz_spec :
    ∀ (questions : List Question) (checked : String → Option String),
      gradeQuiz questions checked
        = (questions.countP fun q =>
            (checked q.id).any fun v => jsParseInt v == some q.correct)
      ∧ ((∀ q ∈ questions, ∃ v, checked q.id = some v ∧ jsParseInt v = some q.correct) →
          gradeQuiz questions checked = questions.length)
      ∧ ((∀ q ∈ questions, checked q.id = none) →
          gradeQuiz questions checked = 0) := by
  intro qs checked
  refine ⟨?_, ?_, ?_⟩
  · induction qs with
    | nil => rfl
    | cons q t ih =>
        rw [gradeQuiz_cons, List.countP_cons, ih]
        have hq : questionScore checked q =
            if ((checked q.id).any fun v => jsParseInt v == some q.correct) = true
            then 1 else 0 := by
          unfold questionScore
          rcases hc : checked q.id with _ | v
          · simp
          · simp only [Option.any_some]
            split
            · next h => simp [h]
            · next h =>
                have : (jsParseInt v == some q.correct) = false := by
                  simp [h]
                simp [this]
        rw [hq]
        omega
  · induction qs with
    | nil => intro _; rfl
    | cons q t ih =>
        intro hall
        rw [gradeQuiz_cons]
        obtain ⟨v, hv, hp⟩ := hall q (by simp)
        have h1 : questionScore checked q = 1 := by
          unfold questionScore
          rw [hv]
          simp [hp]
        rw [h1, ih fun x hx => hall x (by simp [hx])]
        simp only [List.length_cons]
        omega
  · induction qs with
    | nil => intro _; rfl
    | cons q t ih =>
        intro hnone
        rw [gradeQuiz_cons]
        have h0 : questionScore checked q = 0 := by
          unfold questionScore
          rw [hnone q (by simp)]
        rw [h0, ih fun x hx => hnone x (by simp [hx])]

/-- C1 witness: one question with `correct = 1`; selecting value `"1"`
scores 1 of 1, selecting nothing scores 0. -/
theorem gradeQuiz_spec_witness :
    gradeQuiz [⟨"q1", "Q", none, ["0", "1"], 1⟩]
        (fun n => if n = "q1" then some "1" else none) = 1
    ∧ gradeQuiz [⟨"q1", "Q", none, ["0", "1"], 1⟩] (fun _ => none) = 0 := by
  constructor
  · exact (gradeQuiz_spec [⟨"q1", "Q", none, ["0", "1"], 1⟩]
      (fun n => if n = "q1" then some "1" else none)).2.1
      (by intro q hq; simp only [List.mem_singleton] at hq; subst hq;
          exact ⟨"1", rfl, rfl⟩)
  · exact (gradeQuiz_spec [⟨"q1", "Q", none, ["0", "1"], 1⟩] (fun _ => none)).2.2
      (fun q _ => rfl)

/-- C10: the score is always between 0 and the number of questions, and
each question contributes exactly 0 or 1. -/
theorem gradeQuiz_bounds :
    ∀ (questions : List Question) (checked : String → Option String),
      0 ≤ gradeQuiz questions checked
      ∧ gradeQuiz questions checked ≤ questions.length
      ∧ ∀ q : Question, questionScore checked q = 0 ∨ questionScore checked q = 1 := by
  intro qs checked
  refine ⟨Nat.zero_le _, ?_, ?_⟩
  · induction qs with
    | nil => simp [gradeQuiz]
    | cons q t ih =>
        rw [gradeQuiz_cons]
        have := questionScore_le_one checked q
        simp only [List.length_cons]
        omega
  · intro q
    have := questionScore_le_one checked q
    omega

/-- C7: a non-success response makes `loadQuiz` set the display area to
the fixed failure message and stop without rendering anything. -/
theorem loadQuiz_failure :
    ∀ res : QuizApiResponse, res.ok = false →
      loadQuizStep res = QuizAreaContent.failText "Could not load quiz." := by
  intro res h
  unfold loadQuizStep
  simp [h]

/-- C7 witness: a failed response, concretely. -/
theorem loadQuiz_failure_witness :
    loadQuizStep ⟨false, none⟩ = QuizAreaContent.failText "Could not load quiz." :=
  loadQuiz_failure ⟨false, none⟩ rfl

/-- C8: with an empty question list, `renderQuiz` replaces the (cleared)
container content with the fixed notice, creating no selectable inputs and
no submit action. -/
theorem renderQuiz_empty_spec :
    renderQuiz [] = QuizView.noQuestions
        "<div class=\x27small\x27>No quiz questions found for this selection.</div>"
    ∧ viewInputs (renderQuiz []) = []
    ∧ viewHasSubmit (renderQuiz []) = false :=
  ⟨rfl, rfl, rfl⟩

/-! ## Claim theorems: date helper -/

theorem jsPadStart_length {s : String} (h : s.length ≤ 2) :
    (jsPadStart s 2 '0').length = 2 := by
  unfold jsPadStart
  split
  · next hlt =>
      rw [String.length_append]
      show (List.replicate (2 - s.length) '0').length + s.length = 2
      rw [List.length_replicate]
      omega
  · next hge => omega

/-- C2: on input that splits on hyphens into at least 3 parts whose month
and day components have the "YYYY-MM-DD" shape (1–2 digit characters), the
result is the two components zero-padded to width 2 and joined by a
hyphen, a 5-character string; for a null input, the empty string, or any
input with fewer than 3 hyphen-separated parts, the result is null. -/
theorem mmddFromDateInput_spec :
    (∀ s mm dd : String,
       3 ≤ (jsSplit s '-').length →
       mm = (jsSplit s '-').getD 1 "" → dd = (jsSplit s '-').getD 2 "" →
       1 ≤ mm.length → mm.length ≤ 2 → (∀ c ∈ mm.data, c.isDigit = true) →
       1 ≤ dd.length → dd.length ≤ 2 → (∀ c ∈ dd.data, c.isDigit = true) →
       mmddFromDateInput (some s)
         = some (jsPadStart mm 2 '0' ++ "-" ++ jsPadStart dd 2 '0')
       ∧ (jsPadStart mm 2 '0' ++ "-" ++ jsPadStart dd 2 '0').length = 5)
    ∧ mmddFromDateInput none = none
    ∧ mmddFromDateInput (some "") = none
    ∧ (∀ s : String, (jsSplit s '-').length < 3 →
        mmddFromDateInput (some s) = none) := by
  refine ⟨?_, rfl, rfl, ?_⟩
  · intro s mm dd hlen hmm hdd hm1 hm2 hmd hd1 hd2 hdd2
    have hs : s ≠ "" := by
      intro he
      subst he
      exact absurd hlen (by decide)
    constructor
    · unfold mmddFromDateInput
      show (if s = "" then none
        else if (jsSplit s '-').length ≥ 3 then
          some (jsPadStart ((jsSplit s '-').getD 1 "") 2 '0' ++ "-" ++
            jsPadStart ((jsSplit s '-').getD 2 "") 2 '0')
        else none) = some (jsPadStart mm 2 '0' ++ "-" ++ jsPadStart dd 2 '0')
      rw [if_neg hs, if_pos hlen, ← hmm, ← hdd]
    · rw [String.length_append, String.length_append,
        jsPadStart_length hm2, jsPadStart_length hd2]
      rfl
  · intro s hlen
    by_cases hs : s = ""
    · subst hs
      rfl
    · unfold mmddFromDateInput
      show (if s = "" then none
        else if (jsSplit s '-').length ≥ 3 then
          some (jsPadStart ((jsSplit s '-').getD 1 "") 2 '0' ++ "-" ++
            jsPadStart ((jsSplit s '-').getD 2 "") 2 '0')
        else none) = none
      rw [if_neg hs, if_neg (by omega)]

/-- C2 witness: `"2024-3-7"` yields the padded 5-character key
`"03-07"`. -/
theorem mmddFromDateInput_spec_witness :
    mmddFromDateInput (some "2024-3-7")
      = some (jsPadStart "3" 2 '0' ++ "-" ++ jsPadStart "7" 2 '0')
    ∧ (jsPadStart "3" 2 '0' ++ "-" ++ jsPadStart "7" 2 '0').length = 5 :=
  mmddFromDateInput_spec.1 "2024-3-7" "3" "7" (by decide) rfl rfl
    (by decide) (by decide) (by decide) (by decide) (by decide) (by decide)
